import Mathlib

set_option maxRecDepth 8000

namespace TagServer

/-- Single added or removed diff line with its 1-based position in the
respective file version (struct Line in cmd/events/main.go). -/
structure Line where
  Num : Int
  Text : String
deriving Repr, DecidableEq

/-- Per-file, per-hunk line ranges of a unified diff (struct HunkDiff in
cmd/events/main.go). -/
structure HunkDiff where
  Filename : String
  OldStart : Int
  OldEnd : Int
  Old : List Line
  NewStart : Int
  NewEnd : Int
  New : List Line
deriving Repr, DecidableEq

/-- Symbol definition location as supplied by the external ctags index.
The correlation code in main.go reads the fields File, Name, Kind,
Signature and Line; the record itself is declared in the ctags package
(spec section 3 data model). -/
structure Tag where
  File : String
  Name : String
  Kind : String
  Signature : String
  Line : Int
deriving Repr, DecidableEq

/-- Default tag used to totalize list indexing (never reached in-range). -/
def dummyTag : Tag := { File := "", Name := "", Kind := "", Signature := "", Line := 0 }

/-- Go strings.HasPrefix. -/
def hasPrefixGo (s pre : String) : Bool := pre.toList.isPrefixOf s.toList

/-- Character class [0-9] of the Go regexes. -/
def isDigitGo (c : Char) : Bool := '0' ≤ c && c ≤ '9'

/-- Character class [A-Za-z0-9] of functionRx. -/
def isAlnumGo (c : Char) : Bool :=
  ('A' ≤ c && c ≤ 'Z') || ('a' ≤ c && c ≤ 'z') || ('0' ≤ c && c ≤ '9')

/-- Perl word class backslash-w = [0-9A-Za-z_] used by typescriptRx. -/
def isWordGo (c : Char) : Bool := isAlnumGo c || c == '_'

/-- Character class [A-Z] of typescriptRx. -/
def isUpperGo (c : Char) : Bool := 'A' ≤ c && c ≤ 'Z'

/-- Perl space class backslash-s = [tab, newline, formfeed, carriage return, space]
used (negated) by fileHeaderRx. -/
def isSpaceGo (c : Char) : Bool :=
  c == ' ' || c == '\t' || c == '\n' || c == Char.ofNat 12 || c == '\r'

/-- Numeric value of a decimal digit character. -/
def digitVal (c : Char) : Nat := c.toNat - '0'.toNat

/-- Value of a string of decimal digits. -/
def digitsToNat (cs : List Char) : Nat :=
  cs.foldl (fun acc c => acc * 10 + digitVal c) 0

/-- Largest 64-bit signed integer, math.MaxInt64. -/
def maxInt64 : Int := 2 ^ 63 - 1

/-- Go strconv.Atoi on a nonempty decimal-digit capture: its error is ignored
by main.go, and on range error Atoi yields the clamped MaxInt64 value. -/
def atoi (s : String) : Int :=
  let n : Int := Int.ofNat (digitsToNat s.toList)
  if n > maxInt64 then maxInt64 else n

/-- Attempted match of fileHeaderRx
(diff --git a/([^s]+) b/(?:[^s]+), with s the space class) anchored at the
start of cs; returns the first capture. The capture is the maximal nonspace
run after "a/" (no shorter split can be followed by " b/" because the next
character of the run is nonspace), and at least one nonspace character must
follow " b/". -/
def fileHeaderAt (cs : List Char) : Option String :=
  if ("diff --git a/".toList).isPrefixOf cs then
    match (cs.drop 13).takeWhile (fun c => !isSpaceGo c),
          (cs.drop 13).dropWhile (fun c => !isSpaceGo c) with
    | [], _ => none
    | r :: rs, rest2 =>
      if (" b/".toList).isPrefixOf rest2 then
        match rest2.drop 3 with
        | [] => none
        | c :: _ => if isSpaceGo c then none else some ((r :: rs).asString)
      else none
  else none

/-- Leftmost match of fileHeaderRx (FindStringSubmatch scans every start
position left to right). -/
def findFileHeader : List Char → Option String
  | [] => none
  | c :: cs =>
    match fileHeaderAt (c :: cs) with
    | some f => some f
    | none => findFileHeader cs

/-- Maximal nonempty digit run at the head of the input, with the remainder. -/
def takeNum (cs : List Char) : Option (List Char × List Char) :=
  let d := cs.takeWhile isDigitGo
  if d.isEmpty then none else some (d, cs.dropWhile isDigitGo)

/-- Attempted match of hunkHeaderRx
(@@ -([0-9]+),([0-9]+) +([0-9]+),([0-9]+) @@) anchored at the start of cs;
returns the four captures. Each greedy digit run is followed by a non-digit
literal, so no backtracking inside a run can succeed. -/
def hunkHeaderAt (cs : List Char) : Option (String × String × String × String) :=
  if ("@@ -".toList).isPrefixOf cs then
    match takeNum (cs.drop 4) with
    | none => none
    | some (d1, r1) =>
      match r1 with
      | ',' :: r2 =>
        match takeNum r2 with
        | none => none
        | some (d2, r3) =>
          if (" +".toList).isPrefixOf r3 then
            match takeNum (r3.drop 2) with
            | none => none
            | some (d3, r5) =>
              match r5 with
              | ',' :: r6 =>
                match takeNum r6 with
                | none => none
                | some (d4, r7) =>
                  if (" @@".toList).isPrefixOf r7 then
                    some (d1.asString, d2.asString, d3.asString, d4.asString)
                  else none
              | _ => none
          else none
      | _ => none
  else none

/-- Leftmost match of hunkHeaderRx. -/
def findHunkHeader : List Char → Option (String × String × String × String)
  | [] => none
  | c :: cs =>
    match hunkHeaderAt (c :: cs) with
    | some r => some r
    | none => findHunkHeader cs

/-- Metadata-line test of the parser loop: prefixes "diff --git", "index ",
"---", "+++" are skipped once inside a file context. -/
def isMetadataLine (line : String) : Bool :=
  hasPrefixGo line "diff --git" || hasPrefixGo line "index " ||
  hasPrefixGo line "---" || hasPrefixGo line "+++"

/-- State of the incremental diff parser loop in Execute: the hunk list built
so far, the two line cursors and the current filename. -/
structure ParserState where
  hunks : List HunkDiff
  oldline : Int
  newline : Int
  filename : String
deriving Repr, DecidableEq

/-- Append a Line to the New list of the most recently opened hunk
(hunkDiffs[len(hunkDiffs)-1].New = append(..., l)). -/
def appendNewToLast : List HunkDiff → Line → List HunkDiff
  | [], _ => []
  | [hd], l => [{ hd with New := hd.New ++ [l] }]
  | hd :: rest, l => hd :: appendNewToLast rest l

/-- Append a Line to the Old list of the most recently opened hunk. -/
def appendOldToLast : List HunkDiff → Line → List HunkDiff
  | [], _ => []
  | [hd], l => [{ hd with Old := hd.Old ++ [l] }]
  | hd :: rest, l => hd :: appendOldToLast rest l

/-- One iteration of the diff-parsing loop of Execute over a single input
line: file header, filename guard, metadata skip, hunk header, global
no-hunk-yet guard, then added / removed / context line handling. -/
def processLine (s : ParserState) (line : String) : ParserState :=
  match findFileHeader line.toList with
  | some fname => { s with filename := fname, oldline := -1, newline := -1 }
  | none =>
    if s.filename = "" then s
    else if isMetadataLine line then s
    else
      match findHunkHeader line.toList with
      | some (d1, d2, d3, d4) =>
        let oldstart := atoi d1
        let oldend := oldstart + atoi d2 - 1
        let newstart := atoi d3
        let newend := newstart + atoi d4 - 1
        { s with oldline := oldstart, newline := newend,
                 hunks := s.hunks ++
                   [{ Filename := s.filename, OldStart := oldstart, OldEnd := oldend,
                      Old := [], NewStart := newstart, NewEnd := newend, New := [] }] }
      | none =>
        if s.hunks = [] then s
        else if hasPrefixGo line "+" then
          { s with hunks := appendNewToLast s.hunks { Num := s.newline, Text := line },
                   newline := s.newline + 1 }
        else if hasPrefixGo line "-" then
          { s with hunks := appendOldToLast s.hunks { Num := s.oldline, Text := line },
                   oldline := s.oldline + 1 }
        else { s with oldline := s.oldline + 1, newline := s.newline + 1 }

/-- Initial parser state: no hunks, both cursors -1, empty filename. -/
def initState : ParserState := { hunks := [], oldline := -1, newline := -1, filename := "" }

/-- Go strings.Split on newline (keeps empty fields). -/
def splitNewlinesAux : List Char → List Char → List String
  | [], acc => [acc.reverse.asString]
  | '\n' :: rest, acc => acc.reverse.asString :: splitNewlinesAux rest []
  | c :: rest, acc => splitNewlinesAux rest (c :: acc)

/-- Split raw text into lines as the Go code does. -/
def splitNewlines (s : String) : List String := splitNewlinesAux s.toList []

/-- Whole diff-parsing pass of Execute: split on newlines and fold the
per-line transition from the initial state; the result is the hunk list. -/
def parseDiff (text : String) : List HunkDiff :=
  ((splitNewlines text).foldl processLine initState).hunks

/-- Hunks of one file: lookup in hunkDiffM, the map grouping hunkDiffs by
filename in append order; a missing key yields the empty list. -/
def hunksFor (hunkDiffs : List HunkDiff) (file : String) : List HunkDiff :=
  hunkDiffs.filter (fun hd => hd.Filename == file)

/-- Implicit end line of the tag at index i of the sorted tag list:
tags[i+1].Line - 1 when a next tag exists, else math.MaxInt64. -/
def endlineAt (tags : List Tag) (i : Nat) : Int :=
  if i + 1 < tags.length then (tags.getD (i + 1) dummyTag).Line - 1 else maxInt64

/-- Overlap test of the correlation loop:
!(hd.NewStart > endline || hd.NewEnd < tags[i].Line). -/
def hunkOverlaps (endline tagLine : Int) (hd : HunkDiff) : Bool :=
  !(decide (hd.NewStart > endline) || decide (hd.NewEnd < tagLine))

/-- Inner loop of the correlator for tag index i: does some hunk of the
tag's file overlap (the break only short-circuits the existence test). -/
def tagMatches (hunkDiffs : List HunkDiff) (tags : List Tag) (i : Nat) : Bool :=
  (hunksFor hunkDiffs (tags.getD i dummyTag).File).any
    (fun hd => hunkOverlaps (endlineAt tags i) (tags.getD i dummyTag).Line hd)

/-- Indices (in iteration order) of tags appended to changedTags. -/
def changedTagIdxs (hunkDiffs : List HunkDiff) (tags : List Tag) : List Nat :=
  (List.range tags.length).filter (tagMatches hunkDiffs tags)

/-- The changedTags list built by the correlation loop. -/
def changedTags (hunkDiffs : List HunkDiff) (tags : List Tag) : List Tag :=
  (changedTagIdxs hunkDiffs tags).map (fun i => tags.getD i dummyTag)

/-- Static ignore set of Go builtins, type names and placeholder tokens. -/
def ignoreList : List String :=
  ["append", "cap", "close", "copy", "delete", "image", "len", "make", "new",
   "print", "panic", "println", "real", "recover", "bool", "byte", "complex128",
   "complex64", "float32", "float64", "int", "int16", "int32", "int64", "int8",
   "rune", "string", "uint", "uint16", "uint32", "uint64", "uint8", "uintptr",
   "func", "TODO"]

/-- Membership in the ignore map. -/
def isIgnored (s : String) : Bool := ignoreList.contains s

/-- Fuel-bounded scan implementing FindAllStringSubmatch of functionRx
((?:([A-Za-z0-9]+)*()): at each start position the greedy alphanumeric run
must be followed directly by an opening parenthesis (the starred capture's
last iteration is that run, possibly empty); on a match the scan resumes
after the parenthesis, otherwise at the next character. The fuel, set to the
input length, strictly bounds the number of steps. -/
def callScanAux : Nat → List Char → List String
  | 0, _ => []
  | _ + 1, [] => []
  | n + 1, c :: cs' =>
    if ((c :: cs').dropWhile isAlnumGo).headD ' ' = '(' then
      ((c :: cs').takeWhile isAlnumGo).asString ::
        callScanAux n ((c :: cs').dropWhile isAlnumGo).tail
    else callScanAux n cs'

/-- All captures of functionRx over a line, leftmost to rightmost. -/
def callScan (cs : List Char) : List String := callScanAux cs.length cs

/-- Backtracking tail of a typescriptRx match when the word run is followed
by end of input or a newline: the dot consumes the run's last character,
which requires the run to keep at least one character for the plus. -/
def tsBacktrack (c : Char) (run : List Char) : Option (List Char × List Char) :=
  if run.length ≥ 2 then some ('<' :: c :: run, c :: run.dropLast) else none

/-- Attempted match of typescriptRx (<([A-Z]w+). with w the word class)
anchored at the start of cs; returns (whole match, capture). -/
def tsAt (cs : List Char) : Option (List Char × List Char) :=
  match cs with
  | '<' :: c :: rest =>
    if isUpperGo c then
      let run := rest.takeWhile isWordGo
      let after := rest.dropWhile isWordGo
      if run.isEmpty then none
      else
        match after with
        | d :: _ => if d = '\n' then tsBacktrack c run else some ('<' :: c :: (run ++ [d]), c :: run)
        | [] => tsBacktrack c run
    else none
  | _ => none

/-- Leftmost match of typescriptRx. -/
def tsFind : List Char → Option (List Char × List Char)
  | [] => none
  | c :: cs =>
    match tsAt (c :: cs) with
    | some r => some r
    | none => tsFind cs

/-- FindStringSubmatch of typescriptRx: nil on no match, otherwise the
two-element slice [whole match, first capture] that the reference loop
iterates over. -/
def typescriptSubmatch (text : String) : List String :=
  match tsFind text.toList with
  | none => []
  | some (whole, capture) => [whole.asString, capture.asString]

/-- Call-like tokens emitted for one added line: the functionRx captures
that are nonempty and not ignored. -/
def callRefTokens (text : String) : List String :=
  (callScan text.toList).filter (fun tok => decide (0 < tok.length) && !isIgnored tok)

/-- Tag-like tokens emitted for one added line: the loop over the submatch
slice keeps every nonempty entry not in the ignore set. -/
def tsRefTokens (text : String) : List String :=
  (typescriptSubmatch text).filter (fun m => decide (0 < m.length) && !isIgnored m)

/-- Commit metadata gathered from the VCS collaborator before assembly. -/
structure CommitMeta where
  remoteURL : String
  commitURL : String
  branch : String
  authorName : String
  authorFirstName : String
  authorEmail : String
  commitTimestamp : Int
deriving Repr, DecidableEq

/-- Event type enum (EvtTypeModified / EvtTypeReferenced). -/
inductive EvtType where
  | Modified
  | Referenced
deriving Repr, DecidableEq

/-- Output event record (sourcegraph Evt as populated by main.go). -/
structure Evt where
  ID : String
  Title : String
  Body : String
  URL : String
  Typ : EvtType
  Time : Int
deriving Repr, DecidableEq

/-- Event update wrapper (EvtUpdate: hashes plus the event). -/
structure EvtUpdate where
  Hashes : List String
  Event : Evt
deriving Repr, DecidableEq

/-- Subscription fan-out record (SubUpdate). -/
structure SubUpdate where
  Src : String
  Dsts : List String
deriving Repr, DecidableEq

/-- Deterministic event ID: kind, subject, file and commit URL joined by
colons, as produced by the Sprintf calls of main.go. -/
def refID (kind subject file url : String) : String :=
  kind ++ ":" ++ subject ++ ":" ++ file ++ ":" ++ url

/-- Modified-definition event for one changed tag. -/
def mkModifiedEvent (md : CommitMeta) (tag : Tag) : EvtUpdate :=
  { Hashes := [tag.Name, tag.File, md.authorFirstName, md.authorEmail]
    Event := {
      ID := refID "modified" tag.Name tag.File md.commitURL
      Title := md.authorFirstName ++ " modified " ++ tag.Kind ++ " " ++ tag.Name ++ tag.Signature
      Body := md.authorFirstName ++ " modified <tt>" ++ tag.Kind ++ " " ++ tag.Name ++
              tag.Signature ++ "</tt> in <tt>" ++ tag.File ++ "</tt> on branch <tt>" ++
              md.branch ++ "</tt> in <tt>" ++ md.remoteURL ++ "</tt>"
      URL := md.commitURL
      Typ := EvtType.Modified
      Time := md.commitTimestamp } }

/-- Call-like reference event for one token of one added line. -/
def mkCallEvent (md : CommitMeta) (fname text tok : String) : EvtUpdate :=
  { Hashes := [tok, fname, md.authorFirstName, md.authorEmail]
    Event := {
      ID := refID "referenced" tok fname md.commitURL
      Title := md.authorFirstName ++ " referenced " ++ tok
      Body := md.authorFirstName ++ " referenced <tt>" ++ tok ++ "</tt> in <tt>" ++ fname ++
              "</tt> on branch <tt>" ++ md.branch ++ "</tt> in <tt>" ++ md.remoteURL ++
              "</tt>\n\n<pre>" ++ text ++ "</pre>"
      URL := md.commitURL
      Typ := EvtType.Referenced
      Time := md.commitTimestamp } }

/-- Tag-like (React component) reference event for one token of one line. -/
def mkTsEvent (md : CommitMeta) (fname text tok : String) : EvtUpdate :=
  { Hashes := [tok, fname]
    Event := {
      ID := refID "referenced(react)" tok fname md.commitURL
      Title := md.authorFirstName ++ " used React component " ++ tok
      Body := md.authorFirstName ++ " used React component <tt>" ++ tok ++ "</tt> in <tt>" ++
              fname ++ "</tt> on branch <tt>" ++ md.branch ++ "</tt> in <tt>" ++
              md.remoteURL ++ "</tt>\n\n<pre>" ++ text ++ "</pre>"
      URL := md.commitURL
      Typ := EvtType.Referenced
      Time := md.commitTimestamp } }

/-- Two subscription updates per emitted token: author first name and author
full name, each pointing at the token. -/
def subsFor (md : CommitMeta) (toks : List String) : List SubUpdate :=
  (toks.map (fun t =>
    [{ Src := md.authorFirstName, Dsts := [t] }, { Src := md.authorName, Dsts := [t] }])).flatten

/-- Reference events of one added line: all kept call-like tokens, then all
kept tag-like tokens, in scan order. -/
def lineRefEvents (md : CommitMeta) (fname text : String) : List EvtUpdate :=
  (callRefTokens text).map (mkCallEvent md fname text) ++
  (tsRefTokens text).map (mkTsEvent md fname text)

/-- Subscription updates of one added line, in the same token order. -/
def lineRefSubs (md : CommitMeta) (text : String) : List SubUpdate :=
  subsFor md (callRefTokens text) ++ subsFor md (tsRefTokens text)

/-- Reference events of the whole run: hunks in order, each hunk's added
lines in order (removed and context lines are never scanned). -/
def referenceEvents (md : CommitMeta) (hunkDiffs : List HunkDiff) : List EvtUpdate :=
  (hunkDiffs.map (fun hd =>
    (hd.New.map (fun l => lineRefEvents md hd.Filename l.Text)).flatten)).flatten

/-- Subscription updates of the reference pass, in the same order. -/
def referenceSubs (md : CommitMeta) (hunkDiffs : List HunkDiff) : List SubUpdate :=
  (hunkDiffs.map (fun hd =>
    (hd.New.map (fun l => lineRefSubs md l.Text)).flatten)).flatten

/-- Subscription updates of the modified-definition pass. -/
def modifiedSubs (md : CommitMeta) (ctags : List Tag) : List SubUpdate :=
  (ctags.map (fun t =>
    [{ Src := md.authorFirstName, Dsts := [t.Name] }, { Src := md.authorName, Dsts := [t.Name] }])).flatten

/-- Event/subscription assembly stage of Execute: modified-definition events
for the changed tags, then reference events, with the parallel subscription
lists in the same order. -/
def assemble (md : CommitMeta) (hunkDiffs : List HunkDiff) (tags : List Tag) :
    List EvtUpdate × List SubUpdate :=
  ((changedTags hunkDiffs tags).map (mkModifiedEvent md) ++ referenceEvents md hunkDiffs,
   modifiedSubs md (changedTags hunkDiffs tags) ++ referenceSubs md hunkDiffs)

/-- Concrete commit metadata used by the witnesses below. -/
def md0 : CommitMeta :=
  { remoteURL := "github.com/org/repo", commitURL := "https://github.com/org/repo/commit/abc123",
    branch := "master", authorName := "Ada Lovelace", authorFirstName := "Ada",
    authorEmail := "ada@example.com", commitTimestamp := 1450000000 }

/-- Concrete hunk for the correlation witness (new range 10..12 of a.go). -/
def hd1w : HunkDiff :=
  { Filename := "a.go", OldStart := 10, OldEnd := 10, Old := [],
    NewStart := 10, NewEnd := 12, New := [] }

/-- Concrete hunk list for the correlation witness. -/
def hunks1w : List HunkDiff := [hd1w]

/-- Concrete tag list for the correlation witness (Foo at 9, Bar at 15). -/
def tags1w : List Tag :=
  [{ File := "a.go", Name := "Foo", Kind := "func", Signature := "()", Line := 9 },
   { File := "a.go", Name := "Bar", Kind := "func", Signature := "()", Line := 15 }]

/-- Concrete tag list for the endline witness, spanning two files. -/
def tags2w : List Tag :=
  [{ File := "a.go", Name := "Foo", Kind := "func", Signature := "()", Line := 9 },
   { File := "b.go", Name := "Bar", Kind := "func", Signature := "()", Line := 15 }]

/-- Concrete parser state for the hunk-header cursor witness. -/
def s3w : ParserState := { hunks := [], oldline := -1, newline := -1, filename := "f.go" }

/-- Two tags with identical Line value (already Line-sorted). -/
def c4tags : List Tag :=
  [{ File := "a.go", Name := "Foo", Kind := "func", Signature := "()", Line := 5 },
   { File := "a.go", Name := "Bar", Kind := "func", Signature := "()", Line := 5 }]

/-- Three tags, the first two sharing a Line value. -/
def tags4w : List Tag :=
  [{ File := "a.go", Name := "A", Kind := "func", Signature := "()", Line := 7 },
   { File := "a.go", Name := "B", Kind := "func", Signature := "()", Line := 7 },
   { File := "a.go", Name := "C", Kind := "func", Signature := "()", Line := 20 }]

/-- Hunk whose only added line contains a markup component usage. -/
def hunks5c : List HunkDiff :=
  [{ Filename := "a.tsx", OldStart := 1, OldEnd := 1, Old := [],
     NewStart := 1, NewEnd := 2, New := [{ Num := 1, Text := "+<Foo/>" }] }]

/-- Hunk whose only added line contains one function call. -/
def hunks5w : List HunkDiff :=
  [{ Filename := "m.go", OldStart := 1, OldEnd := 1, Old := [],
     NewStart := 1, NewEnd := 2, New := [{ Num := 1, Text := "+foo(1)" }] }]

/-- Hunk whose only added line contains a markup component usage
(failing input of the tag-like scanner). -/
def hunks6 : List HunkDiff :=
  [{ Filename := "a.tsx", OldStart := 1, OldEnd := 1, Old := [],
     NewStart := 1, NewEnd := 2, New := [{ Num := 1, Text := "+z = <Foo/>" }] }]

/-- Concrete parser state for the hunk-bounds witness. -/
def s7w : ParserState := { hunks := [], oldline := -1, newline := -1, filename := "g.go" }

/-- Concrete hunk list for the determinism witness. -/
def hunks8w : List HunkDiff :=
  [{ Filename := "a.go", OldStart := 10, OldEnd := 10, Old := [],
     NewStart := 10, NewEnd := 12, New := [{ Num := 13, Text := "+doStuff(1)" }] }]

/-- Concrete tag list for the determinism witness. -/
def tags8w : List Tag :=
  [{ File := "a.go", Name := "Foo", Kind := "func", Signature := "()", Line := 9 }]

/-- Concrete hunk list for the reference-scanner witness. -/
def hunks9 : List HunkDiff :=
  [{ Filename := "m.go", OldStart := 1, OldEnd := 1, Old := [],
     NewStart := 1, NewEnd := 2, New := [{ Num := 1, Text := "+doStuff(x, y)" }] }]

/-- Concrete hunk preceding the second file header in the guard witness. -/
def hd10w : HunkDiff :=
  { Filename := "x.go", OldStart := 1, OldEnd := 1, Old := [], NewStart := 1, NewEnd := 1, New := [] }

/-- Concrete parser state with one already-open hunk. -/
def s10w : ParserState := { hunks := [hd10w], oldline := 5, newline := 6, filename := "x.go" }

/-- Round trip between character lists and strings. -/
theorem asString_toList (l : List Char) : (l.asString).toList = l := rfl

/-- Strings built from a nonempty character list are nonempty. -/
theorem asString_cons_ne_empty (r : Char) (rs : List Char) : (r :: rs).asString ≠ "" := by
  intro h
  have h2 := congrArg String.toList h
  rw [asString_toList] at h2
  exact List.noConfusion (h2.trans (show "".toList = [] from rfl))

/-- File-header captures are never the empty string: the capture group
matches at least one nonspace character. -/
theorem fileHeaderAt_ne_empty {cs : List Char} {f : String}
    (h : fileHeaderAt cs = some f) : f ≠ "" := by
  unfold fileHeaderAt at h
  split at h
  · split at h
    · exact Option.noConfusion h
    · split at h
      · split at h
        · exact Option.noConfusion h
        · split at h
          · exact Option.noConfusion h
          · injection h with h'
            subst h'
            exact asString_cons_ne_empty _ _
      · exact Option.noConfusion h
  · exact Option.noConfusion h

/-- The leftmost file-header capture is never the empty string. -/
theorem findFileHeader_ne_empty : ∀ {cs : List Char} {f : String},
    findFileHeader cs = some f → f ≠ "" := by
  intro cs
  induction cs with
  | nil => intro f h; exact Option.noConfusion h
  | cons c cs ih =>
    intro f h
    rw [findFileHeader] at h
    split at h
    · rename_i g heq
      injection h with h'
      subst h'
      exact fileHeaderAt_ne_empty heq
    · exact ih h

/-- Appending a single element determines the last element of a list. -/
theorem getLast?_append_singleton {α : Type} (l : List α) (x : α) :
    (l ++ [x]).getLast? = some x := by
  rw [List.getLast?_concat]

/-- The endline computation reads only the Line values of the tag list. -/
theorem getD_line_eq_of_map_eq (tags tags' : List Tag)
    (h : tags.map Tag.Line = tags'.map Tag.Line) :
    ∀ j, (tags.getD j dummyTag).Line = (tags'.getD j dummyTag).Line := by
  induction tags generalizing tags' with
  | nil =>
    cases tags' with
    | nil => intro j; rfl
    | cons b m => simp at h
  | cons a l ih =>
    cases tags' with
    | nil => simp at h
    | cons b m =>
      simp only [List.map_cons, List.cons.injEq] at h
      intro j
      cases j with
      | zero => simpa using h.1
      | succ j => simpa [List.getD_cons_succ] using ih m h.2 j

/-- Claim C2: after the global sort, the implicit end line of tag i is
tags[i+1].Line - 1 whenever any next tag exists in the global sequence —
the computation reads only Line values, never files — and is the maximum
64-bit integer for the last tag. -/
theorem c2_endline_scheme (tags : List Tag) (i : Nat) (_hi : i < tags.length) :
    (∀ _ : i + 1 < tags.length, endlineAt tags i = (tags.getD (i + 1) dummyTag).Line - 1) ∧
    (i + 1 = tags.length → endlineAt tags i = 2 ^ 63 - 1) ∧
    (∀ tags' : List Tag, tags.map Tag.Line = tags'.map Tag.Line →
        endlineAt tags i = endlineAt tags' i) := by
  refine ⟨fun h => ?_, fun h => ?_, fun tags' h => ?_⟩
  · unfold endlineAt
    rw [if_pos h]
  · unfold endlineAt
    rw [if_neg (by omega)]
    rfl
  · have hlen : tags.length = tags'.length := by
      have h2 := congrArg List.length h
      simpa using h2
    unfold endlineAt
    rw [hlen, getD_line_eq_of_map_eq tags tags' h (i + 1)]

/-- Claim C2 witness: in the two-file tag list, the first tag's end line is
bounded by the next tag of the other file and the last tag's end is the
maximum integer. -/
theorem c2_witness : endlineAt tags2w 0 = 14 ∧ endlineAt tags2w 1 = 2 ^ 63 - 1 := by
  constructor
  · rw [(c2_endline_scheme tags2w 0 (by decide)).1 (by decide)]
    decide
  · exact (c2_endline_scheme tags2w 1 (by decide)).2.1 (by decide)

/-- Claim C4 counterexample: two tags with identical Line value in the
Line-sorted list do not receive the same implicit end line — the earlier
receives Line - 1 and the later the open end. -/
theorem c4_counterexample :
    c4tags.map Tag.Line = [5, 5] ∧
    endlineAt c4tags 0 = 4 ∧ endlineAt c4tags 1 = 2 ^ 63 - 1 ∧
    endlineAt c4tags 0 ≠ endlineAt c4tags 1 := by decide

/-- Claim C4 (amended): adjacent tags with equal Line value receive distinct
implicit end lines: the earlier gets Line - 1 (a degenerate range ending
before its own start line), the later the end determined by the tag after
it, or the maximum integer when none exists. -/
theorem c4_equal_line_endlines (tags : List Tag) (i : Nat)
    (_h0 : i < tags.length) (h1 : i + 1 < tags.length)
    (h2 : (tags.getD i dummyTag).Line = (tags.getD (i + 1) dummyTag).Line) :
    endlineAt tags i = (tags.getD i dummyTag).Line - 1 ∧
    endlineAt tags i < (tags.getD i dummyTag).Line ∧
    endlineAt tags (i + 1) =
      (if i + 2 < tags.length then (tags.getD (i + 2) dummyTag).Line - 1 else maxInt64) := by
  refine ⟨?_, ?_, ?_⟩
  · unfold endlineAt
    rw [if_pos h1, ← h2]
  · unfold endlineAt
    rw [if_pos h1, ← h2]
    omega
  · unfold endlineAt
    rfl

/-- Claim C4 witness: for the equal-Line pair at lines 7 and 7 followed by a
tag at line 20, the two end lines are 6 and 19. -/
theorem c4_witness : endlineAt tags4w 0 = 6 ∧ endlineAt tags4w 1 = 19 := by
  have h := c4_equal_line_endlines tags4w 0 (by decide) (by decide) (by decide)
  refine ⟨?_, ?_⟩
  · rw [h.1]
    decide
  · have h2 := h.2.2
    norm_num at h2
    rw [h2]
    decide

/-- Claim C8: the assembly stage is a pure function of the tag list, hunk
list and commit metadata: equal inputs give equal ordered event IDs and
equal ordered subscription updates. -/
theorem c8_assembler_deterministic (md md' : CommitMeta) (hunks hunks' : List HunkDiff)
    (tags tags' : List Tag) (h1 : md = md') (h2 : hunks = hunks') (h3 : tags = tags') :
    (assemble md hunks tags).1.map (fun e => e.Event.ID) =
      (assemble md' hunks' tags').1.map (fun e => e.Event.ID) ∧
    (assemble md hunks tags).2 = (assemble md' hunks' tags').2 := by
  subst h1
  subst h2
  subst h3
  exact ⟨rfl, rfl⟩

/-- Claim C8 witness: two runs on the same concrete input coincide. -/
theorem c8_witness :
    (assemble md0 hunks8w tags8w).1.map (fun e => e.Event.ID) =
      (assemble md0 hunks8w tags8w).1.map (fun e => e.Event.ID) ∧
    (assemble md0 hunks8w tags8w).2 = (assemble md0 hunks8w tags8w).2 :=
  c8_assembler_deterministic md0 md0 hunks8w hunks8w tags8w tags8w rfl rfl rfl

/-- Claim C3: when a line is handled by the hunk-header branch of the
parser, the old cursor is set to old_start and the new cursor to the new
hunk's NewEnd, that is new_start + new_count - 1. -/
theorem c3_cursors_after_hunk_header (s : ParserState) (line : String)
    (a b c d : String)
    (h1 : findFileHeader line.toList = none)
    (h2 : s.filename ≠ "")
    (h3 : isMetadataLine line = false)
    (h4 : findHunkHeader line.toList = some (a, b, c, d)) :
    (processLine s line).oldline = atoi a ∧
    (processLine s line).newline = atoi c + atoi d - 1 ∧
    ((processLine s line).hunks.getLast?).map HunkDiff.NewEnd =
      some ((processLine s line).newline) := by
  simp only [processLine, h1, h3, h4, if_neg h2, Bool.false_eq_true, if_false]
  refine ⟨trivial, trivial, ?_⟩
  rw [getLast?_append_singleton]
  rfl

/-- Claim C3 witness: processing the header line sets the cursors to 3 and
7 + 4 - 1 = 10. -/
theorem c3_witness :
    (processLine s3w "@@ -3,2 +7,4 @@").oldline = 3 ∧
    (processLine s3w "@@ -3,2 +7,4 @@").newline = 10 := by
  have h := c3_cursors_after_hunk_header s3w "@@ -3,2 +7,4 @@" "3" "2" "7" "4"
    (by decide) (by decide) (by decide) (by decide)
  exact ⟨by rw [h.1]; decide, by rw [h.2.1]; decide⟩

/-- Claim C7: a parsed hunk header with captures a, b, c, d appends a hunk
with OldStart = a, OldEnd = a + b - 1, NewStart = c, NewEnd = c + d - 1. -/
theorem c7_hunk_bounds (s : ParserState) (line : String) (a b c d : String)
    (h1 : findFileHeader line.toList = none)
    (h2 : s.filename ≠ "")
    (h3 : isMetadataLine line = false)
    (h4 : findHunkHeader line.toList = some (a, b, c, d)) :
    (processLine s line).hunks =
      s.hunks ++ [{ Filename := s.filename, OldStart := atoi a, OldEnd := atoi a + atoi b - 1,
                    Old := [], NewStart := atoi c, NewEnd := atoi c + atoi d - 1, New := [] }] := by
  simp only [processLine, h1, h3, h4, if_neg h2, Bool.false_eq_true, if_false]

/-- Claim C7 witness: the header with numbers 10, 1, 10, 3 yields the hunk
range pairs (10, 10) and (10, 12). -/
theorem c7_witness :
    (processLine s7w "@@ -10,1 +10,3 @@").hunks =
      [{ Filename := "g.go", OldStart := 10, OldEnd := 10, Old := [],
         NewStart := 10, NewEnd := 12, New := [] }] := by
  rw [c7_hunk_bounds s7w "@@ -10,1 +10,3 @@" "10" "1" "10" "3"
    (by decide) (by decide) (by decide) (by decide)]
  decide

/-- Claim C10 counterexample: a line beginning with a plus that appears
after a later file header but before that file's first hunk header is not
always appended to the last open hunk: the metadata guard drops lines whose
prefix is three pluses, so the parsed hunk's New list stays empty. -/
theorem c10_counterexample :
    hasPrefixGo "+++ b/y.go" "+" = true ∧
    (parseDiff
        "diff --git a/x.go b/x.go\n@@ -1,1 +1,1 @@\ndiff --git a/y.go b/y.go\n+++ b/y.go").map
      (fun hd => hd.New) = [[]] := by decide

/-- Claim C10 (amended): the no-hunk-yet guard is global: after a file
header resets the cursors to -1, a plus-prefixed (resp. minus-prefixed)
line that is itself no file header, no hunk header and no metadata line is
appended to the most recently opened hunk — which belongs to the earlier
file — with Num = -1. -/
theorem c10_global_hunk_guard (s : ParserState) (fh pl fname : String)
    (hfh : findFileHeader fh.toList = some fname)
    (hne : s.hunks ≠ [])
    (h4 : findFileHeader pl.toList = none)
    (h5 : isMetadataLine pl = false)
    (h6 : findHunkHeader pl.toList = none) :
    (hasPrefixGo pl "+" = true →
      processLine (processLine s fh) pl =
        { hunks := appendNewToLast s.hunks { Num := -1, Text := pl },
          oldline := -1, newline := 0, filename := fname }) ∧
    (hasPrefixGo pl "+" = false → hasPrefixGo pl "-" = true →
      processLine (processLine s fh) pl =
        { hunks := appendOldToLast s.hunks { Num := -1, Text := pl },
          oldline := 0, newline := -1, filename := fname }) := by
  have hfn : fname ≠ "" := findFileHeader_ne_empty hfh
  have hstep1 : processLine s fh = { s with filename := fname, oldline := -1, newline := -1 } := by
    simp only [processLine, hfh]
  rw [hstep1]
  constructor
  · intro hp
    simp only [processLine, h4, h5, h6, hp, if_neg hfn, if_neg hne, Bool.false_eq_true,
      if_false, if_true]
    norm_num
  · intro hp hm
    simp only [processLine, h4, h5, h6, hp, hm, if_neg hfn, if_neg hne, Bool.false_eq_true,
      if_false, if_true]
    norm_num

/-- Claim C10 witness: with one hunk already open for x.go, a plus line
right after the y.go file header is appended to that hunk with Num = -1. -/
theorem c10_witness :
    processLine (processLine s10w "diff --git a/y.go b/y.go") "+q := 1" =
      { hunks := appendNewToLast [hd10w] { Num := -1, Text := "+q := 1" },
        oldline := -1, newline := 0, filename := "y.go" } :=
  (c10_global_hunk_guard s10w "diff --git a/y.go b/y.go" "+q := 1" "y.go"
    (by decide) (by decide) (by decide) (by decide) (by decide)).1 (by decide)

/-- Nonzero-length strings are nonempty. -/
theorem length_pos_ne_empty {s : String} (h : 0 < s.length) : s ≠ "" := by
  intro h0
  subst h0
  exact absurd h (by decide)

/-- Claim C1: a tag index is reported as changed exactly when some hunk of
the same file passes the overlap test against the tag's implicit line
range; each index is reported at most once; a tag whose file has no hunks
is never reported. -/
theorem c1_changed_iff_overlap (hunks : List HunkDiff) (tags : List Tag) (i : Nat)
    (hi : i < tags.length) :
    (i ∈ changedTagIdxs hunks tags ↔
      ∃ hd, hd ∈ hunks ∧ hd.Filename = (tags.getD i dummyTag).File ∧
        hunkOverlaps (endlineAt tags i) (tags.getD i dummyTag).Line hd = true) ∧
    (changedTagIdxs hunks tags).count i ≤ 1 ∧
    (hunksFor hunks (tags.getD i dummyTag).File = [] → i ∉ changedTagIdxs hunks tags) := by
  have hmem : i ∈ changedTagIdxs hunks tags ↔
      ∃ hd, hd ∈ hunks ∧ hd.Filename = (tags.getD i dummyTag).File ∧
        hunkOverlaps (endlineAt tags i) (tags.getD i dummyTag).Line hd = true := by
    unfold changedTagIdxs
    rw [List.mem_filter, List.mem_range]
    constructor
    · rintro ⟨-, hm⟩
      unfold tagMatches hunksFor at hm
      rw [List.any_eq_true] at hm
      obtain ⟨hd, hhd, hov⟩ := hm
      rw [List.mem_filter] at hhd
      exact ⟨hd, hhd.1, eq_of_beq hhd.2, hov⟩
    · rintro ⟨hd, hhd, hfile, hov⟩
      refine ⟨hi, ?_⟩
      unfold tagMatches hunksFor
      rw [List.any_eq_true]
      exact ⟨hd, by rw [List.mem_filter]; exact ⟨hhd, by simp [hfile]⟩, hov⟩
  refine ⟨hmem, ?_, ?_⟩
  · exact List.nodup_iff_count_le_one.mp ((List.nodup_range _).filter _) i
  · intro hempty hin
    obtain ⟨hd, hhd, hfile, hov⟩ := hmem.mp hin
    have hmem2 : hd ∈ hunksFor hunks (tags.getD i dummyTag).File := by
      unfold hunksFor
      rw [List.mem_filter]
      exact ⟨hhd, by simp [hfile]⟩
    rw [hempty] at hmem2
    exact List.not_mem_nil hd hmem2

/-- Claim C1 witness: tag Foo at line 9 (implicit end 14) overlaps the hunk
with new range 10..12, so index 0 is reported changed. -/
theorem c1_witness : 0 ∈ changedTagIdxs hunks1w tags1w :=
  ((c1_changed_iff_overlap hunks1w tags1w 0 (by decide)).1).mpr
    ⟨hd1w, by decide, by decide, by decide⟩

/-- Soundness of the call scan: every capture is an alphanumeric run that
occurs in the input immediately followed by an opening parenthesis. -/
theorem callScanAux_sound :
    ∀ (n : Nat) (cs : List Char) (tok : String), tok ∈ callScanAux n cs →
      tok.toList.all isAlnumGo = true ∧ ∃ u v, u ++ (tok.toList ++ ['(']) ++ v = cs := by
  intro n
  induction n with
  | zero =>
    intro cs tok h
    simp [callScanAux] at h
  | succ n ih =>
    intro cs tok h
    cases cs with
    | nil => simp [callScanAux] at h
    | cons c cs' =>
      simp only [callScanAux] at h
      by_cases hb : ((c :: cs').dropWhile isAlnumGo).headD ' ' = '('
      · rw [if_pos hb] at h
        have hrest : (c :: cs').dropWhile isAlnumGo =
            '(' :: ((c :: cs').dropWhile isAlnumGo).tail := by
          cases hdw : (c :: cs').dropWhile isAlnumGo with
          | nil =>
            rw [hdw] at hb
            simp only [List.headD_nil] at hb
            exact absurd hb (by decide)
          | cons x xs =>
            rw [hdw] at hb
            simp only [List.headD_cons] at hb
            rw [hb]
            rfl
        rcases List.mem_cons.mp h with htok | htok
        · subst htok
          constructor
          · rw [asString_toList, List.all_eq_true]
            intro x hx
            exact List.mem_takeWhile_imp hx
          · refine ⟨[], ((c :: cs').dropWhile isAlnumGo).tail, ?_⟩
            rw [asString_toList, List.nil_append, List.append_assoc,
              List.singleton_append, ← hrest]
            exact List.takeWhile_append_dropWhile _ _
        · obtain ⟨hall, u, v, huv⟩ := ih _ _ htok
          refine ⟨hall, (c :: cs').takeWhile isAlnumGo ++ '(' :: u, v, ?_⟩
          simp only [List.append_assoc, List.cons_append, List.singleton_append,
            List.nil_append] at huv ⊢
          rw [huv, ← hrest]
          exact List.takeWhile_append_dropWhile _ _
      · rw [if_neg hb] at h
        obtain ⟨hall, u, v, huv⟩ := ih cs' tok h
        refine ⟨hall, c :: u, v, ?_⟩
        simp only [List.cons_append]
        rw [huv]

/-- Soundness of the call scan at the top-level fuel value. -/
theorem callScan_sound (cs : List Char) (tok : String) (h : tok ∈ callScan cs) :
    tok.toList.all isAlnumGo = true ∧ ∃ u v, u ++ (tok.toList ++ ['(']) ++ v = cs :=
  callScanAux_sound cs.length cs tok h

/-- Every reference event comes from one kept token of one added line of
one hunk, via the corresponding event constructor. -/
theorem mem_referenceEvents {md : CommitMeta} {hunks : List HunkDiff} {e : EvtUpdate}
    (he : e ∈ referenceEvents md hunks) :
    ∃ hd, hd ∈ hunks ∧ ∃ l, l ∈ hd.New ∧
      ((∃ tok, tok ∈ callRefTokens l.Text ∧ e = mkCallEvent md hd.Filename l.Text tok) ∨
       (∃ tok, tok ∈ tsRefTokens l.Text ∧ e = mkTsEvent md hd.Filename l.Text tok)) := by
  unfold referenceEvents at he
  rw [List.mem_flatten] at he
  obtain ⟨lst, hlst, helst⟩ := he
  rw [List.mem_map] at hlst
  obtain ⟨hd, hhd, rfl⟩ := hlst
  rw [List.mem_flatten] at helst
  obtain ⟨lst2, hlst2, helst2⟩ := helst
  rw [List.mem_map] at hlst2
  obtain ⟨l, hl, rfl⟩ := hlst2
  unfold lineRefEvents at helst2
  rcases List.mem_append.mp helst2 with hc | ht
  · rw [List.mem_map] at hc
    obtain ⟨tok, htok, rfl⟩ := hc
    exact ⟨hd, hhd, l, hl, Or.inl ⟨tok, htok, rfl⟩⟩
  · rw [List.mem_map] at ht
    obtain ⟨tok, htok, rfl⟩ := ht
    exact ⟨hd, hhd, l, hl, Or.inr ⟨tok, htok, rfl⟩⟩

/-- The reference pass depends only on each hunk's Filename and New list:
removed and context lines never influence it. -/
theorem referenceEvents_filename_new (md : CommitMeta) :
    ∀ (hunks hunks' : List HunkDiff),
      hunks.map (fun hd => (hd.Filename, hd.New)) =
        hunks'.map (fun hd => (hd.Filename, hd.New)) →
      referenceEvents md hunks = referenceEvents md hunks' ∧
      referenceSubs md hunks = referenceSubs md hunks' := by
  intro hunks
  induction hunks with
  | nil =>
    intro hunks' hmap
    cases hunks' with
    | nil => exact ⟨rfl, rfl⟩
    | cons b m => simp at hmap
  | cons a rest ih =>
    intro hunks' hmap
    cases hunks' with
    | nil => simp at hmap
    | cons b m =>
      simp only [List.map_cons, List.cons.injEq, Prod.mk.injEq] at hmap
      obtain ⟨⟨hf, hn⟩, hrest⟩ := hmap
      obtain ⟨he, hs⟩ := ih m hrest
      constructor
      · unfold referenceEvents at he ⊢
        simp only [List.map_cons, List.flatten_cons]
        rw [hf, hn, he]
      · unfold referenceSubs at hs ⊢
        simp only [List.map_cons, List.flatten_cons]
        rw [hn, hs]

/-- Claim C9: every call-like reference token is a nonempty alphanumeric
identifier occurring immediately before an opening parenthesis in an added
line of some hunk and is never in the ignore set; no reference event of
either kind carries an ignored or empty token; and the reference pass reads
only the Filename and New fields of each hunk, never removed or context
lines. -/
theorem c9_reference_tokens (md : CommitMeta) (hunks : List HunkDiff) :
    (∀ e, e ∈ referenceEvents md hunks →
      ∃ hd, hd ∈ hunks ∧ ∃ l, l ∈ hd.New ∧ ∃ tok : String,
        isIgnored tok = false ∧ tok ≠ "" ∧
        ((e = mkCallEvent md hd.Filename l.Text tok ∧
            tok.toList.all isAlnumGo = true ∧
            ∃ u v, u ++ (tok.toList ++ ['(']) ++ v = l.Text.toList) ∨
         e = mkTsEvent md hd.Filename l.Text tok)) ∧
    (∀ hunks' : List HunkDiff,
      hunks.map (fun hd => (hd.Filename, hd.New)) =
        hunks'.map (fun hd => (hd.Filename, hd.New)) →
      referenceEvents md hunks = referenceEvents md hunks' ∧
      referenceSubs md hunks = referenceSubs md hunks') := by
  constructor
  · intro e he
    obtain ⟨hd, hhd, l, hl, hcase⟩ := mem_referenceEvents he
    rcases hcase with ⟨tok, htok, rfl⟩ | ⟨tok, htok, rfl⟩
    · unfold callRefTokens at htok
      rw [List.mem_filter] at htok
      obtain ⟨hscan, hkeep⟩ := htok
      rw [Bool.and_eq_true] at hkeep
      have hlen : 0 < tok.length := of_decide_eq_true hkeep.1
      have hig : isIgnored tok = false := by simpa using hkeep.2
      obtain ⟨hall, u, v, huv⟩ := callScan_sound _ _ hscan
      exact ⟨hd, hhd, l, hl, tok, hig, length_pos_ne_empty hlen,
        Or.inl ⟨rfl, hall, u, v, huv⟩⟩
    · unfold tsRefTokens at htok
      rw [List.mem_filter] at htok
      obtain ⟨hscan, hkeep⟩ := htok
      rw [Bool.and_eq_true] at hkeep
      have hlen : 0 < tok.length := of_decide_eq_true hkeep.1
      have hig : isIgnored tok = false := by simpa using hkeep.2
      exact ⟨hd, hhd, l, hl, tok, hig, length_pos_ne_empty hlen, Or.inr rfl⟩
  · exact referenceEvents_filename_new md hunks

/-- Claim C9 witness: the single event of the concrete run arises from the
added line of the hunk with the non-ignored token doStuff. -/
theorem c9_witness :
    ∃ hd, hd ∈ hunks9 ∧ ∃ l, l ∈ hd.New ∧ ∃ tok : String,
      isIgnored tok = false ∧ tok ≠ "" ∧
      ((mkCallEvent md0 "m.go" "+doStuff(x, y)" "doStuff" =
          mkCallEvent md0 hd.Filename l.Text tok ∧
          tok.toList.all isAlnumGo = true ∧
          ∃ u v, u ++ (tok.toList ++ ['(']) ++ v = l.Text.toList) ∨
       mkCallEvent md0 "m.go" "+doStuff(x, y)" "doStuff" = mkTsEvent md0 hd.Filename l.Text tok) :=
  (c9_reference_tokens md0 hunks9).1 (mkCallEvent md0 "m.go" "+doStuff(x, y)" "doStuff")
    (by decide)

/-- Claim C5 counterexample: the run on the markup line emits an event whose
ID begins with the kind referenced(react), which is none of the three kinds
modified, referenced and referenced(markup) allowed by the claim. -/
theorem c5_counterexample :
    ((assemble md0 hunks5c []).1.map (fun e => e.Event.ID)).headD "" =
      "referenced(react):<Foo/:a.tsx:https://github.com/org/repo/commit/abc123" ∧
    (∀ k, k ∈ ["modified", "referenced", "referenced(markup)"] →
      hasPrefixGo "referenced(react):<Foo/:a.tsx:https://github.com/org/repo/commit/abc123"
        (k ++ ":") = false) := by decide

/-- Claim C5 (amended): every emitted event ID is kind, subject, file and
commit URL joined by colons, where the kind is one of modified, referenced
and referenced(react). -/
theorem c5_event_id_kinds (md : CommitMeta) (hunks : List HunkDiff) (tags : List Tag) :
    ∀ e, e ∈ (assemble md hunks tags).1 → ∃ kind subject file : String,
      (kind = "modified" ∨ kind = "referenced" ∨ kind = "referenced(react)") ∧
      e.Event.ID = kind ++ ":" ++ subject ++ ":" ++ file ++ ":" ++ md.commitURL := by
  intro e he
  simp only [assemble] at he
  rcases List.mem_append.mp he with hm | hr
  · rw [List.mem_map] at hm
    obtain ⟨t, _, rfl⟩ := hm
    exact ⟨"modified", t.Name, t.File, Or.inl rfl, rfl⟩
  · obtain ⟨hd, _, l, _, hcase⟩ := mem_referenceEvents hr
    rcases hcase with ⟨tok, _, rfl⟩ | ⟨tok, _, rfl⟩
    · exact ⟨"referenced", tok, hd.Filename, Or.inr (Or.inl rfl), rfl⟩
    · exact ⟨"referenced(react)", tok, hd.Filename, Or.inr (Or.inr rfl), rfl⟩

/-- Claim C5 witness: the event emitted for the foo call carries an ID of
the colon-joined shape with an allowed kind. -/
theorem c5_witness :
    ∃ kind subject file : String,
      (kind = "modified" ∨ kind = "referenced" ∨ kind = "referenced(react)") ∧
      (mkCallEvent md0 "m.go" "+foo(1)" "foo").Event.ID =
        kind ++ ":" ++ subject ++ ":" ++ file ++ ":" ++ md0.commitURL :=
  c5_event_id_kinds md0 hunks5w [] (mkCallEvent md0 "m.go" "+foo(1)" "foo") (by decide)

/-- Claim C6 evaluation at the failing input: the tag-like loop ranges over
the whole FindStringSubmatch slice, so the single markup line emits two
tag-like events — first for the whole match including the angle bracket and
trailing character, then for the captured word. -/
theorem c6_double_emission :
    (referenceEvents md0 hunks6).map (fun e => e.Event.ID) =
      ["referenced(react):<Foo/:a.tsx:https://github.com/org/repo/commit/abc123",
       "referenced(react):Foo:a.tsx:https://github.com/org/repo/commit/abc123"] ∧
    typescriptSubmatch "+z = <Foo/>" = ["<Foo/", "Foo"] := by decide

end TagServer
